import Mathlib

/-!
Verification of the quote-review extraction engine.

Shallow embedding of the extraction core of `src/app.py`:
the heuristic line parser `smart_extract_pdf` (line classifier, record
boundary detector, field extractor, table fallback, record assembler)
and the row filter `search_data`.

Python regular-expression semantics are embedded directly: each pattern
used by the source is rendered as an anchored matcher with the engine's
greedy/lazy backtracking order, `re.search` as a left-to-right scan of
start positions, and `re.findall` as a non-overlapping left-to-right scan.
Character classes (`\d`, `\s`, `\w`, `str.isdigit`, `str.strip`,
`str.lower`) are modelled over the ASCII fragment the report text uses.
Records (Python dicts keyed by the fixed header names) are modelled as
association lists with in-place update, preserving key membership.
-/

set_option maxRecDepth 4096

namespace QuoteReview

/-- Python `\s` (ASCII fragment): space, tab, newline, CR, VT, FF. -/
def pyWs (c : Char) : Bool :=
  c == ' ' || c == '\t' || c == '\n' || c == '\r' || c == '\x0b' || c == '\x0c'

/-- ASCII decimal digit, Python `\d` / `str.isdigit` on report text. -/
def isDigitC (c : Char) : Bool := '0' ≤ c && c ≤ '9'

/-- ASCII uppercase letter, the class `[A-Z]`. -/
def isUpperC (c : Char) : Bool := 'A' ≤ c && c ≤ 'Z'

/-- ASCII lowercase letter, the class `[a-z]`. -/
def isLowerC (c : Char) : Bool := 'a' ≤ c && c ≤ 'z'

/-- The class `[a-zA-Z]` used by the state-code context pattern. -/
def isLetterC (c : Char) : Bool := isUpperC c || isLowerC c

/-- Python `\w` (ASCII fragment): letters, digits, underscore. -/
def isWordC (c : Char) : Bool := isLetterC c || isDigitC c || c == '_'

/-- ASCII `str.lower` of one character. -/
def lowerC (c : Char) : Char :=
  if isUpperC c then Char.ofNat (c.toNat + 32) else c

/-- ASCII `str.lower` of a string. -/
def pyLower (s : String) : String := ⟨s.data.map lowerC⟩

/-- Python `str.strip()` on a character list (ASCII whitespace). -/
def pyStrip (cs : List Char) : List Char :=
  ((cs.dropWhile pyWs).reverse.dropWhile pyWs).reverse

/-- `str.strip()` on strings. -/
def pyStripS (s : String) : String := ⟨pyStrip s.data⟩

/-- Python substring test `needle in hay`. -/
def containsSub (needle : List Char) : List Char → Bool
  | [] => needle.isEmpty
  | c :: t => needle.isPrefixOf (c :: t) || containsSub needle t

/-- First `some` value of `f` over a list, in order: the backtracking
search over one choice point of a regex. -/
def firstSome (f : α → Option β) : List α → Option β
  | [] => none
  | a :: t =>
    match f a with
    | some b => some b
    | none => firstSome f t

/-- `[n, n-1, ..., 1]`: greedy order for a `+`/`*` repetition bounded by `n`. -/
def rangeDesc (n : Nat) : List Nat := (List.range n).reverse.map (· + 1)

/-- `[1, 2, ..., n]`: lazy order for a `+?` repetition bounded by `n`. -/
def rangeAsc (n : Nat) : List Nat := (List.range n).map (· + 1)

/-- `re.search`: try the anchored matcher at each start position, leftmost
first (the final attempt is at the empty suffix). -/
def scanSearch (f : List Char → Option β) : List Char → Option β
  | [] => f []
  | c :: t =>
    match f (c :: t) with
    | some b => some b
    | none => scanSearch f t

/-- `re.findall` worker with explicit fuel (structural recursion so that
the kernel can evaluate it): scan left to right; on a match emit the
token and resume after it, otherwise advance one position.  Each step
shortens the list by at least one character, so fuel equal to the length
of the list is exact. -/
def findAllAux (m : List Char → Option (List Char × List Char)) :
    Nat → List Char → List (List Char)
  | 0, _ => []
  | _ + 1, [] => []
  | fuel + 1, c :: t =>
    match m (c :: t) with
    | some (tok, _) => tok :: findAllAux m fuel ((c :: t).drop (tok.length.max 1))
    | none => findAllAux m fuel t

/-- `re.findall` over a whole string. -/
def findAll (m : List Char → Option (List Char × List Char)) (cs : List Char) :
    List (List Char) :=
  findAllAux m cs.length cs

/-! ## Anchored matchers for the patterns of `smart_extract_pdf` -/

/-- `\d{1,2}/`, greedy: two digits then `/` if possible, else one digit
then `/`.  (The one-digit alternative is viable only when the second
character is `/`, so the outcome is deterministic.)  Returns the consumed
characters and the rest. -/
def dd12Slash : List Char → Option (List Char × List Char)
  | c1 :: c2 :: c3 :: r =>
    if isDigitC c1 then
      if isDigitC c2 then
        if c3 = '/' then some ([c1, c2, c3], r) else none
      else if c2 = '/' then some ([c1, c2], c3 :: r) else none
    else none
  | [c1, c2] => if isDigitC c1 && c2 = '/' then some ([c1, c2], []) else none
  | _ => none

/-- `\d{1,2}/\d{1,2}/\d{2}` anchored at the head (the `date_pattern` of
line 205 of `app.py`). -/
def dateAt (cs : List Char) : Option (List Char × List Char) :=
  match dd12Slash cs with
  | none => none
  | some (m1, r1) =>
    match dd12Slash r1 with
    | none => none
    | some (m2, r2) =>
      match r2 with
      | d1 :: d2 :: r3 =>
        if isDigitC d1 && isDigitC d2 then some (m1 ++ m2 ++ [d1, d2], r3) else none
      | _ => none

/-- `[\d,]+\.\d{2}` anchored at the head (the `price_pattern` of line 209).
`[\d,]+` is greedy and only its maximal run can be followed by `.`, so no
backtracking arises. -/
def moneyAt (cs : List Char) : Option (List Char × List Char) :=
  let run := cs.takeWhile (fun c => isDigitC c || c == ',')
  if run.isEmpty then none
  else
    match cs.drop run.length with
    | '.' :: d1 :: d2 :: r =>
      if isDigitC d1 && isDigitC d2 then some (run ++ ['.', d1, d2], r) else none
    | _ => none

/-- Existence of a match of `[a-zA-Z](CODE)(?:\s|$)` (line 216): some
position holds a letter, immediately followed by the code, immediately
followed by whitespace or the end of the string. -/
def ctxOccurs (code : List Char) : List Char → Bool
  | [] => false
  | c :: t =>
    (isLetterC c && code.isPrefixOf t &&
      (match t.drop code.length with
       | [] => true
       | d :: _ => pyWs d)) ||
    ctxOccurs code t

/-- Case-insensitive (ASCII) literal prefix match, for `re.IGNORECASE`. -/
def ciPrefix : List Char → List Char → Bool
  | [], _ => true
  | _ :: _, [] => false
  | p :: pt, c :: ct => lowerC p == lowerC c && ciPrefix pt ct

/-- `\s*-\s*\d+%` anchored at the head; returns the number of characters
consumed.  Each greedy repetition is forced to its maximal run because the
following literal is outside its class. -/
def milestoneTailLen (cs : List Char) : Option Nat :=
  let j := (cs.takeWhile pyWs).length
  match cs.drop j with
  | '-' :: r1 =>
    let j2 := (r1.takeWhile pyWs).length
    let r2 := r1.drop j2
    let d := (r2.takeWhile isDigitC).length
    if d = 0 then none
    else
      match r2.drop d with
      | '%' :: _ => some (j + 1 + j2 + d + 1)
      | _ => none
  | _ => none

/-- `(Incomplete\s*-\s*\d+%|Complete\s*-\s*\d+%)` with `re.IGNORECASE`
(line 222), anchored at the head; the two alternatives are tried in
order.  Returns the matched text verbatim (case and spacing preserved). -/
def milestoneAt (cs : List Char) : Option (List Char) :=
  if ciPrefix "Incomplete".data cs then
    match milestoneTailLen (cs.drop 10) with
    | some n => some (cs.take (10 + n))
    | none =>
      if ciPrefix "Complete".data cs then
        match milestoneTailLen (cs.drop 8) with
        | some n => some (cs.take (8 + n))
        | none => none
      else none
  else if ciPrefix "Complete".data cs then
    match milestoneTailLen (cs.drop 8) with
    | some n => some (cs.take (8 + n))
    | none => none
  else none

/-- `\s+\d+\s+\d{1,2}/` anchored at the head: the tail of the
vendor/quantity pattern (line 231/236).  Returns the `\d+` group (the
quantity) on success.  Maximal-run semantics is exact: each greedy
repetition abuts a character outside its class. -/
def vendTail (cs : List Char) : Option (List Char) :=
  let j := (cs.takeWhile pyWs).length
  if j = 0 then none
  else
    let r1 := cs.drop j
    let ds := r1.takeWhile isDigitC
    if ds.isEmpty then none
    else
      let r2 := r1.drop ds.length
      let j2 := (r2.takeWhile pyWs).length
      if j2 = 0 then none
      else
        match r2.drop j2 with
        | d1 :: d2 :: d3 :: _ =>
          if isDigitC d1 && ((isDigitC d2 && d3 = '/') || d2 = '/') then some ds else none
        | [d1, d2] => if isDigitC d1 && d2 = '/' then some ds else none
        | _ => none

/-- `\s([A-Z]{2,5}(?:-[A-Z])?)\s+(\d+)\s+\d{1,2}/` anchored at the head
(lines 231 and 236 run the same pattern; group 1 is the vendor, group 2
the quantity).  `{2,5}` is tried greedily (5 down to 2) and the optional
`-[A-Z]` is tried present-first, exactly the engine's backtracking
order. -/
def vendorAt (cs : List Char) : Option (String × String) :=
  match cs with
  | [] => none
  | c :: r =>
    if pyWs c then
      firstSome (fun k =>
        let g := r.take k
        if g.length = k && g.all isUpperC then
          let absent :=
            match vendTail (r.drop k) with
            | some q => some (String.mk g, String.mk q)
            | none => none
          match r.drop k with
          | '-' :: u :: r2 =>
            if isUpperC u then
              match vendTail r2 with
              | some q => some (String.mk (g ++ ['-', u]), String.mk q)
              | none => absent
            else absent
          | _ => absent
        else none) [5, 4, 3, 2]
    else none

/-- `LIT\s+(.+?)\s+END` anchored at the head, where `END` is an arbitrary
anchored test: the shape of the description pattern (line 257) and the
customer pattern (line 267).  Backtracking order: outer `\s+` greedy,
`(.+?)` lazy, inner `\s+` greedy.  `.` excludes newline.  Returns the
captured group. -/
def sandwichAt (lit : List Char) (endTest : List Char → Bool) (cs : List Char) :
    Option (List Char) :=
  if lit.isPrefixOf cs then
    let r1 := cs.drop lit.length
    let maxJ := (r1.takeWhile pyWs).length
    firstSome (fun j =>
      let r2 := r1.drop j
      firstSome (fun l =>
        let mid := r2.take l
        if mid.length = l && mid.all (fun c => c ≠ '\n') then
          let r3 := r2.drop l
          let maxK := (r3.takeWhile pyWs).length
          firstSome (fun k => if endTest (r3.drop k) then some mid else none)
            (rangeDesc maxK)
        else none) (rangeAsc r2.length)) (rangeDesc maxJ)
  else none

/-- `(\d{1,2}/\d{1,2}/\d{2})\s+([A-Za-z]+\s+[A-Za-z\s]+?)STATE` anchored
at the head (line 275).  The date and the runs `\s+`, `[A-Za-z]+` are
deterministic here (each abuts a character outside its class); the inner
`\s+` is greedy and the `[A-Za-z\s]+?` lazy.  Returns group 2. -/
def addedByAt (st : List Char) (cs : List Char) : Option (List Char) :=
  match dateAt cs with
  | none => none
  | some (_, r1) =>
    let j := (r1.takeWhile pyWs).length
    if j = 0 then none
    else
      let r2 := r1.drop j
      let a := r2.takeWhile isLetterC
      if a.isEmpty then none
      else
        let r3 := r2.drop a.length
        let maxJ2 := (r3.takeWhile pyWs).length
        firstSome (fun j2 =>
          let r4 := r3.drop j2
          firstSome (fun l =>
            let mid := r4.take l
            if mid.length = l && mid.all (fun c => isLetterC c || pyWs c) &&
                st.isPrefixOf (r4.drop l) then
              some (a ++ r3.take j2 ++ mid)
            else none) (rangeAsc r4.length)) (rangeDesc maxJ2)

/-- `([\w\d\-#]+)\s+MILESTONE` anchored at the head (line 281; the
milestone text is `re.escape`d, hence a literal).  Both greedy runs are
forced maximal: a shorter class run abuts a class character, a shorter
whitespace run abuts whitespace while the milestone starts with a
letter. -/
def summaryAt (mile : List Char) (cs : List Char) : Option (List Char) :=
  let run := cs.takeWhile (fun c => isWordC c || c == '-' || c == '#')
  if run.isEmpty then none
  else
    let r1 := cs.drop run.length
    let j := (r1.takeWhile pyWs).length
    if j = 0 then none
    else if mile.isPrefixOf (r1.drop j) then some run else none

/-! ## Records and the extraction pipeline -/

/-- A record: a Python dict keyed by header names, modelled as an
association list with in-place update (insertion order preserved, keys
unique by construction). -/
abbrev Rec := List (String × String)

/-- `d[k] = v` on a Python dict: update the first occurrence of `k` in
place, or append a fresh binding. -/
def dictSet (d : Rec) (k v : String) : Rec :=
  match d with
  | [] => [(k, v)]
  | (k', v') :: t => if k' = k then (k', v) :: t else (k', v') :: dictSet t k v

/-- `row.get(k, '')` / `row_dict[k]` with default. -/
def dictGetD (d : Rec) (k : String) : String := (List.lookup k d).getD ""

/-- The fixed 14-name header schema (lines 141-145 of `app.py`). -/
def headerNames : List String :=
  ["Quote #", "PartNum", "Description", "Vendor", "Qty",
   "AddDate", "Exp. Close", "Added By", "State", "Customer Name",
   "ListEach", "Ext_Price", "Summary", "Milestone"]

/-- The 51-entry state-code set in its fixed enumeration order
(lines 148-152). -/
def statesList : List String :=
  ["AL", "AK", "AZ", "AR", "CA", "CO", "CT", "DE", "FL", "GA",
   "HI", "ID", "IL", "IN", "IA", "KS", "KY", "LA", "ME", "MD",
   "MA", "MI", "MN", "MS", "MO", "MT", "NE", "NV", "NH", "NJ",
   "NM", "NY", "NC", "ND", "OH", "OK", "OR", "PA", "RI", "SC",
   "SD", "TN", "TX", "UT", "VT", "VA", "WA", "WV", "WI", "WY", "DC"]

/-- `for header in headers: if header not in row_dict: row_dict[header] = ''`
(lines 286-288). -/
def fillMissing (hs : List String) (d : Rec) : Rec :=
  hs.foldl (fun d h => if (List.lookup h d).isSome then d else dictSet d h "") d

/-- `parts[0]` of `rest_of_line.split()`: the first whitespace-delimited
token (empty when the remainder is all whitespace, in which case `parts`
is empty and `PartNum` is not assigned). -/
def firstToken (cs : List Char) : List Char :=
  (cs.dropWhile pyWs).takeWhile (fun c => !pyWs c)

/-- `prices[-1]` as used at line 250. -/
def lastD (l : List (List Char)) : List Char := l.getLast?.getD []

/-- `prices[-2]` as used at line 248 (under `len(prices) >= 2`). -/
def penultD (l : List (List Char)) : List Char := l.dropLast.getLast?.getD []

/-- The date list `re.findall(date_pattern, rest_of_line)` (line 206). -/
def datesOf (rest : List Char) : List (List Char) := findAll dateAt rest

/-- The money list `re.findall(price_pattern, rest_of_line)` (line 210). -/
def pricesOf (rest : List Char) : List (List Char) := findAll moneyAt rest

/-- The state-code loop of lines 213-219: first code of the enumeration
whose context pattern occurs, else the empty string. -/
def stateOf (rest : List Char) : String :=
  match statesList.find? (fun st => ctxOccurs st.data rest) with
  | some s => s
  | none => ""

/-- The milestone of lines 222-223 (empty when no match). -/
def milestoneOf (rest : List Char) : String :=
  match scanSearch milestoneAt rest with
  | some m => String.mk m
  | none => ""

/-- Line 228: `row_dict['PartNum'] = parts[0]`, guarded by `if parts:`. -/
def stepPartNum (rest : List Char) (d : Rec) : Rec :=
  if (firstToken rest).isEmpty then d
  else dictSet d "PartNum" (String.mk (firstToken rest))

/-- Lines 231-238: the combined vendor/quantity pattern; on a match the
letter group becomes `Vendor` and (via the identical second search) the
digit group becomes `Qty`. -/
def stepVendor (rest : List Char) (d : Rec) : Rec :=
  match scanSearch vendorAt rest with
  | some (v, qty) => dictSet (dictSet d "Vendor" v) "Qty" qty
  | none => d

/-- Lines 241-244: `dates[0]` to `AddDate`, `dates[1]` to `Exp. Close`
when present. -/
def stepDates (rest : List Char) (d : Rec) : Rec :=
  match datesOf rest with
  | [] => d
  | dt1 :: dtl =>
    match dtl with
    | [] => dictSet d "AddDate" (String.mk dt1)
    | dt2 :: _ => dictSet (dictSet d "AddDate" (String.mk dt1)) "Exp. Close" (String.mk dt2)

/-- Lines 247-250: `prices[-2] if len >= 2 else prices[0]` to `ListEach`,
`prices[-1]` to `Ext_Price` when at least two. -/
def stepPrices (rest : List Char) (d : Rec) : Rec :=
  match pricesOf rest with
  | [] => d
  | [p] => dictSet d "ListEach" (String.mk p)
  | p1 :: p2 :: ps =>
    dictSet (dictSet d "ListEach" (String.mk (penultD (p1 :: p2 :: ps))))
      "Ext_Price" (String.mk (lastD (p1 :: p2 :: ps)))

/-- Line 252: `row_dict['State'] = state_found` (unconditional). -/
def stepState (rest : List Char) (d : Rec) : Rec := dictSet d "State" (stateOf rest)

/-- Line 253: `row_dict['Milestone'] = milestone` (unconditional). -/
def stepMilestone (rest : List Char) (d : Rec) : Rec :=
  dictSet d "Milestone" (milestoneOf rest)

/-- Lines 256-262: the description search between the literal part-number
and vendor tokens of the current dict, run only when `Vendor` is present
and `PartNum` is truthy. -/
def stepDescription (rest : List Char) (d : Rec) : Rec :=
  if (List.lookup "Vendor" d).isSome && dictGetD d "PartNum" ≠ "" then
    match scanSearch
        (sandwichAt (dictGetD d "PartNum").data
          (fun r => (dictGetD d "Vendor").data.isPrefixOf r)) rest with
    | some g => dictSet d "Description" (pyStripS (String.mk g))
    | none => d
  else d

/-- Lines 265-270: the customer search `STATE\s+(.+?)\s+MONEY`, run only
when a state code was found and the money list is non-empty. -/
def stepCustomer (rest : List Char) (d : Rec) : Rec :=
  if stateOf rest ≠ "" && !(pricesOf rest).isEmpty then
    match scanSearch (sandwichAt (stateOf rest).data (fun r => (moneyAt r).isSome)) rest with
    | some g => dictSet d "Customer Name" (pyStripS (String.mk g))
    | none => d
  else d

/-- Lines 273-277: the added-by search, run only when a state code was
found. -/
def stepAddedBy (rest : List Char) (d : Rec) : Rec :=
  if stateOf rest ≠ "" then
    match scanSearch (addedByAt (stateOf rest).data) rest with
    | some g => dictSet d "Added By" (pyStripS (String.mk g))
    | none => d
  else d

/-- Lines 280-283: the summary search, run only when a milestone was
found; the group is not stripped. -/
def stepSummary (rest : List Char) (d : Rec) : Rec :=
  if milestoneOf rest ≠ "" then
    match scanSearch (summaryAt (milestoneOf rest).data) rest with
    | some g => dictSet d "Summary" (String.mk g)
    | none => d
  else d

/-- Lines 198-283: the field extractor proper, before normalization,
applying the source's assignment statements in order to the initial dict
`{'Quote #': quote_num}`. -/
def extractFields (q : String) (rest : List Char) : Rec :=
  stepSummary rest (stepAddedBy rest (stepCustomer rest (stepDescription rest
    (stepMilestone rest (stepState rest (stepPrices rest (stepDates rest
      (stepVendor rest (stepPartNum rest [("Quote #", q)])))))))))

/-- The field extractor plus the record assembler (lines 198-290): the
extracted dict with every missing header filled with `''`. -/
def extractLine (q : String) (rest : List Char) : Rec :=
  fillMissing headerNames (extractFields q rest)

/-- The line classifier (lines 166-184): a trimmed line is noise iff it is
empty or carries one of the fixed markers. -/
def isNoise (l : List Char) : Bool :=
  l.isEmpty ||
  containsSub "DAILY QUOTE REVIEW".data l ||
  containsSub "Printed:".data l ||
  (containsSub "Quote #".data l && containsSub "PartNum".data l) ||
  containsSub "Quote Type:".data l ||
  containsSub "Total After Discount".data l ||
  "CRM Total".data.isPrefixOf l ||
  containsSub "Quote Ext. Price".data l

/-- `re.match(r'^(\d{7})\s+(.+)$', line)` (line 187): exactly seven
digits, at least one whitespace character, then at least one remaining
character.  `\s+` is greedy: the remainder starts after the maximal
whitespace run, except that when the line ends in that run the engine
backtracks one character so that `(.+)` is non-empty.  (Lines are
newline-free, so `.` and `$` impose no further constraint.) -/
def boundaryMatch (l : List Char) : Option (List Char × List Char) :=
  let pre := l.take 7
  let rest0 := l.drop 7
  if pre.length = 7 && pre.all isDigitC &&
      (match rest0 with
       | [] => false
       | c :: _ => pyWs c) then
    let w := (rest0.takeWhile pyWs).length
    let afterWs := rest0.drop w
    if afterWs.isEmpty then
      if 2 ≤ w then some (pre, rest0.drop (w - 1)) else none
    else some (pre, afterWs)
  else none

/-- One line of the line-based pass (lines 165-290): strip, classify,
detect the record boundary, reject a `Quote Type:` remainder, extract. -/
def processLine (raw : String) : Option Rec :=
  if isNoise (pyStrip raw.data) then none
  else
    match boundaryMatch (pyStrip raw.data) with
    | none => none
    | some (q, rest) =>
      if "Quote Type:".data.isPrefixOf rest then none
      else some (extractLine (String.mk q) rest)

/-- A page as delivered by the PDF collaborator: optional text and the
detected tables (rows of optional cells). -/
structure Page where
  text : Option String
  tables : List (List (List (Option String)))
deriving DecidableEq

/-- `str(cell).strip() if cell else ''` (line 303). -/
def cleanCell : Option String → String
  | none => ""
  | some s => pyStripS s

/-- The loop `for i, header in enumerate(headers)` of lines 307-311:
assign `cleaned[i] if i < len(cleaned) else ''` to each header in
order. -/
def buildPositionalAux (cleaned : List String) : Nat → List String → Rec → Rec
  | _, [], d => d
  | i, h :: hs, d => buildPositionalAux cleaned (i + 1) hs (dictSet d h (cleaned.getD i ""))

/-- Positional projection of a cleaned row onto the header schema. -/
def buildPositional (cleaned : List String) : Rec :=
  buildPositionalAux cleaned 0 headerNames []

/-- One table row of the fallback path (lines 300-312): skip empty rows,
qualify on the first cell (trimmed, all digits per `str.isdigit`, length
at least 6), map cells positionally onto the header schema. -/
def tableRowRec (row : List (Option String)) : Option Rec :=
  match row with
  | [] => none
  | _ =>
    let cleaned := row.map cleanCell
    let firstCell := cleaned.headD ""
    if (firstCell ≠ "" && firstCell.data.all isDigitC) && 6 ≤ firstCell.length then
      some (buildPositional cleaned)
    else none

/-- Python `text.split('\n')`: split at every newline, keeping empty
pieces. -/
def splitNlAux : List Char → List Char → List (List Char)
  | acc, [] => [acc.reverse]
  | acc, c :: t =>
    if c = '\n' then acc.reverse :: splitNlAux [] t else splitNlAux (c :: acc) t

/-- `text.split('\n')` over a whole string. -/
def splitNl (cs : List Char) : List (List Char) := splitNlAux [] cs

/-- The line-based pass over the whole document, page order then line
order. -/
def linePass (pages : List Page) : List Rec :=
  pages.flatMap (fun pg =>
    match pg.text with
    | none => []
    | some t =>
      if t = "" then []
      else (splitNl t.data).filterMap (fun l => processLine (String.mk l)))

/-- The table fallback pass (lines 293-312). -/
def fallbackPass (pages : List Page) : List Rec :=
  pages.flatMap (fun pg => pg.tables.flatMap (fun tb => tb.filterMap tableRowRec))

/-- `smart_extract_pdf`: the header schema plus the record sequence; the
fallback runs exactly when the line-based pass produced zero records
document-wide. -/
def smartExtract (pages : List Page) : List String × List Rec :=
  let rows := linePass pages
  (headerNames, if rows.isEmpty then fallbackPass pages else rows)

/-- `search_data` (lines 360-382): case-insensitive substring filter of
already-extracted rows by one column; an empty column or an empty
(lowered) query returns the rows unchanged. -/
def searchData (rows : List Rec) (column value : String) : List Rec :=
  let sv := pyLower value
  if column = "" || sv = "" then rows
  else rows.filter (fun r => containsSub sv.data (pyLower (dictGetD r column)).data)

/-! ## Dictionary lemmas -/

theorem lookup_dictSet (d : Rec) (k v k' : String) :
    List.lookup k' (dictSet d k v) = if k' = k then some v else List.lookup k' d := by
  induction d with
  | nil =>
    by_cases h : k' = k
    · simp [dictSet, List.lookup_cons, h]
    · have hb : (k' == k) = false := by simp [h]
      simp [dictSet, List.lookup_cons, hb, h]
  | cons p t ih =>
    obtain ⟨k1, v1⟩ := p
    by_cases h1 : k1 = k
    · rw [show dictSet ((k1, v1) :: t) k v = (k1, v) :: t by simp [dictSet, h1]]
      by_cases h : k' = k1
      · have h2 : k' = k := h.trans h1
        simp [List.lookup_cons, h, h1, h2]
      · have hb : (k' == k1) = false := by simp [h]
        have h2 : ¬ k' = k := fun he => h (he.trans h1.symm)
        simp [List.lookup_cons, hb, h2]
    · rw [show dictSet ((k1, v1) :: t) k v = (k1, v1) :: dictSet t k v by simp [dictSet, h1]]
      by_cases h : k' = k1
      · have hb : (k' == k1) = true := by simp [h]
        have h2 : ¬ k' = k := fun he => h1 (h.symm.trans he)
        simp [List.lookup_cons, hb, h2]
      · have hb : (k' == k1) = false := by simp [h]
        simp [List.lookup_cons, hb, ih]

theorem lookup_fillMissing (hs : List String) (d : Rec) (k : String) :
    List.lookup k (fillMissing hs d) =
      match List.lookup k d with
      | some v => some v
      | none => if k ∈ hs then some "" else none := by
  induction hs generalizing d with
  | nil =>
    simp only [fillMissing, List.foldl_nil]
    cases List.lookup k d <;> simp
  | cons h t ih =>
    have step : fillMissing (h :: t) d =
        fillMissing t (if (List.lookup h d).isSome then d else dictSet d h "") := by
      simp [fillMissing, List.foldl_cons]
    rw [step]
    by_cases hs : (List.lookup h d).isSome
    · rw [if_pos hs, ih]
      rcases hd : List.lookup k d with _ | v
      · have hkh : ¬ k = h := fun he => by
          rw [he] at hd; rw [hd] at hs; simp at hs
        simp [List.mem_cons, hkh]
      · rfl
    · rw [if_neg hs, ih, lookup_dictSet]
      by_cases hk : k = h
      · subst hk
        rcases hd : List.lookup k d with _ | v
        · simp [List.mem_cons]
        · rw [hd] at hs; simp at hs
      · rw [if_neg hk]
        rcases List.lookup k d with _ | v
        · simp [List.mem_cons, hk]
        · rfl

theorem mem_keys_iff_lookup (d : Rec) (k : String) :
    k ∈ d.map Prod.fst ↔ (List.lookup k d).isSome := by
  rw [List.lookup_isSome_iff]
  constructor
  · intro h
    rcases List.mem_map.mp h with ⟨p, hp, he⟩
    exact ⟨p, hp, by simp [he]⟩
  · rintro ⟨p, hp, he⟩
    exact List.mem_map.mpr ⟨p, hp, (beq_iff_eq.mp he).symm⟩

/-! ## Per-step lookup lemmas -/

theorem stepPartNum_lookup (rest : List Char) (d : Rec) (k : String)
    (h : k ≠ "PartNum") : List.lookup k (stepPartNum rest d) = List.lookup k d := by
  unfold stepPartNum; split <;> simp [lookup_dictSet, h]

theorem stepVendor_lookup (rest : List Char) (d : Rec) (k : String)
    (h1 : k ≠ "Vendor") (h2 : k ≠ "Qty") :
    List.lookup k (stepVendor rest d) = List.lookup k d := by
  unfold stepVendor; split <;> simp [lookup_dictSet, h1, h2]

theorem stepDates_lookup (rest : List Char) (d : Rec) (k : String)
    (h1 : k ≠ "AddDate") (h2 : k ≠ "Exp. Close") :
    List.lookup k (stepDates rest d) = List.lookup k d := by
  unfold stepDates; split
  · rfl
  · split <;> simp [lookup_dictSet, h1, h2]

theorem stepPrices_lookup (rest : List Char) (d : Rec) (k : String)
    (h1 : k ≠ "ListEach") (h2 : k ≠ "Ext_Price") :
    List.lookup k (stepPrices rest d) = List.lookup k d := by
  unfold stepPrices; split <;> simp [lookup_dictSet, h1, h2]

theorem stepState_lookup (rest : List Char) (d : Rec) (k : String)
    (h : k ≠ "State") : List.lookup k (stepState rest d) = List.lookup k d := by
  unfold stepState; simp [lookup_dictSet, h]

theorem stepMilestone_lookup (rest : List Char) (d : Rec) (k : String)
    (h : k ≠ "Milestone") : List.lookup k (stepMilestone rest d) = List.lookup k d := by
  unfold stepMilestone; simp [lookup_dictSet, h]

theorem stepDescription_lookup (rest : List Char) (d : Rec) (k : String)
    (h : k ≠ "Description") :
    List.lookup k (stepDescription rest d) = List.lookup k d := by
  unfold stepDescription; split
  · split <;> simp [lookup_dictSet, h]
  · rfl

theorem stepCustomer_lookup (rest : List Char) (d : Rec) (k : String)
    (h : k ≠ "Customer Name") :
    List.lookup k (stepCustomer rest d) = List.lookup k d := by
  unfold stepCustomer; split
  · split <;> simp [lookup_dictSet, h]
  · rfl

theorem stepAddedBy_lookup (rest : List Char) (d : Rec) (k : String)
    (h : k ≠ "Added By") :
    List.lookup k (stepAddedBy rest d) = List.lookup k d := by
  unfold stepAddedBy; split
  · split <;> simp [lookup_dictSet, h]
  · rfl

theorem stepSummary_lookup (rest : List Char) (d : Rec) (k : String)
    (h : k ≠ "Summary") :
    List.lookup k (stepSummary rest d) = List.lookup k d := by
  unfold stepSummary; split
  · split <;> simp [lookup_dictSet, h]
  · rfl

/-! ## Field-value lemmas for the extractor -/

theorem extractFields_State (q : String) (rest : List Char) :
    List.lookup "State" (extractFields q rest) = some (stateOf rest) := by
  unfold extractFields
  rw [stepSummary_lookup _ _ _ (by decide), stepAddedBy_lookup _ _ _ (by decide),
      stepCustomer_lookup _ _ _ (by decide), stepDescription_lookup _ _ _ (by decide),
      stepMilestone_lookup _ _ _ (by decide)]
  unfold stepState
  simp [lookup_dictSet]

theorem extractFields_AddDate (q : String) (rest : List Char) :
    List.lookup "AddDate" (extractFields q rest) =
      match datesOf rest with
      | [] => none
      | dt1 :: _ => some (String.mk dt1) := by
  unfold extractFields
  rw [stepSummary_lookup _ _ _ (by decide), stepAddedBy_lookup _ _ _ (by decide),
      stepCustomer_lookup _ _ _ (by decide), stepDescription_lookup _ _ _ (by decide),
      stepMilestone_lookup _ _ _ (by decide), stepState_lookup _ _ _ (by decide),
      stepPrices_lookup _ _ _ (by decide) (by decide)]
  have hbase : List.lookup "AddDate"
      (stepVendor rest (stepPartNum rest [("Quote #", q)])) = none := by
    rw [stepVendor_lookup _ _ _ (by decide) (by decide),
        stepPartNum_lookup _ _ _ (by decide)]
    have hb : ("AddDate" == "Quote #") = false := by decide
    simp [List.lookup_cons, hb]
  unfold stepDates
  rcases h : datesOf rest with _ | ⟨dt1, _ | ⟨dt2, dts⟩⟩ <;>
    simp [lookup_dictSet, hbase]

theorem extractFields_ExpClose (q : String) (rest : List Char) :
    List.lookup "Exp. Close" (extractFields q rest) =
      match datesOf rest with
      | dt1 :: dt2 :: _ => some (String.mk dt2)
      | _ => none := by
  unfold extractFields
  rw [stepSummary_lookup _ _ _ (by decide), stepAddedBy_lookup _ _ _ (by decide),
      stepCustomer_lookup _ _ _ (by decide), stepDescription_lookup _ _ _ (by decide),
      stepMilestone_lookup _ _ _ (by decide), stepState_lookup _ _ _ (by decide),
      stepPrices_lookup _ _ _ (by decide) (by decide)]
  have hbase : List.lookup "Exp. Close"
      (stepVendor rest (stepPartNum rest [("Quote #", q)])) = none := by
    rw [stepVendor_lookup _ _ _ (by decide) (by decide),
        stepPartNum_lookup _ _ _ (by decide)]
    have hb : ("Exp. Close" == "Quote #") = false := by decide
    simp [List.lookup_cons, hb]
  unfold stepDates
  rcases h : datesOf rest with _ | ⟨dt1, _ | ⟨dt2, dts⟩⟩ <;>
    simp [lookup_dictSet, hbase]

theorem extractFields_ListEach (q : String) (rest : List Char) :
    List.lookup "ListEach" (extractFields q rest) =
      match pricesOf rest with
      | [] => none
      | [p] => some (String.mk p)
      | p1 :: p2 :: ps => some (String.mk (penultD (p1 :: p2 :: ps))) := by
  unfold extractFields
  rw [stepSummary_lookup _ _ _ (by decide), stepAddedBy_lookup _ _ _ (by decide),
      stepCustomer_lookup _ _ _ (by decide), stepDescription_lookup _ _ _ (by decide),
      stepMilestone_lookup _ _ _ (by decide), stepState_lookup _ _ _ (by decide)]
  have hbase : List.lookup "ListEach"
      (stepDates rest (stepVendor rest (stepPartNum rest [("Quote #", q)]))) = none := by
    rw [stepDates_lookup _ _ _ (by decide) (by decide),
        stepVendor_lookup _ _ _ (by decide) (by decide),
        stepPartNum_lookup _ _ _ (by decide)]
    have hb : ("ListEach" == "Quote #") = false := by decide
    simp [List.lookup_cons, hb]
  unfold stepPrices
  rcases h : pricesOf rest with _ | ⟨p1, _ | ⟨p2, ps⟩⟩ <;>
    simp [lookup_dictSet, hbase]

theorem extractFields_ExtPrice (q : String) (rest : List Char) :
    List.lookup "Ext_Price" (extractFields q rest) =
      match pricesOf rest with
      | p1 :: p2 :: ps => some (String.mk (lastD (p1 :: p2 :: ps)))
      | _ => none := by
  unfold extractFields
  rw [stepSummary_lookup _ _ _ (by decide), stepAddedBy_lookup _ _ _ (by decide),
      stepCustomer_lookup _ _ _ (by decide), stepDescription_lookup _ _ _ (by decide),
      stepMilestone_lookup _ _ _ (by decide), stepState_lookup _ _ _ (by decide)]
  have hbase : List.lookup "Ext_Price"
      (stepDates rest (stepVendor rest (stepPartNum rest [("Quote #", q)]))) = none := by
    rw [stepDates_lookup _ _ _ (by decide) (by decide),
        stepVendor_lookup _ _ _ (by decide) (by decide),
        stepPartNum_lookup _ _ _ (by decide)]
    have hb : ("Ext_Price" == "Quote #") = false := by decide
    simp [List.lookup_cons, hb]
  unfold stepPrices
  rcases h : pricesOf rest with _ | ⟨p1, _ | ⟨p2, ps⟩⟩ <;>
    simp [lookup_dictSet, hbase]

theorem extractFields_Customer (q : String) (rest : List Char) :
    List.lookup "Customer Name" (extractFields q rest) =
      (if stateOf rest ≠ "" && !(pricesOf rest).isEmpty then
        match scanSearch (sandwichAt (stateOf rest).data (fun r => (moneyAt r).isSome)) rest with
        | some g => some (pyStripS (String.mk g))
        | none => none
      else none) := by
  unfold extractFields
  rw [stepSummary_lookup _ _ _ (by decide), stepAddedBy_lookup _ _ _ (by decide)]
  have hbase : List.lookup "Customer Name"
      (stepDescription rest (stepMilestone rest (stepState rest (stepPrices rest
        (stepDates rest (stepVendor rest (stepPartNum rest [("Quote #", q)]))))))) = none := by
    rw [stepDescription_lookup _ _ _ (by decide), stepMilestone_lookup _ _ _ (by decide),
        stepState_lookup _ _ _ (by decide), stepPrices_lookup _ _ _ (by decide) (by decide),
        stepDates_lookup _ _ _ (by decide) (by decide),
        stepVendor_lookup _ _ _ (by decide) (by decide),
        stepPartNum_lookup _ _ _ (by decide)]
    have hb : ("Customer Name" == "Quote #") = false := by decide
    simp [List.lookup_cons, hb]
  unfold stepCustomer
  split
  · split <;> simp [lookup_dictSet, hbase]
  · simp [hbase]

theorem extractLine_getD_of_mem (q : String) (rest : List Char) (k : String)
    (hk : k ∈ headerNames) :
    dictGetD (extractLine q rest) k =
      (List.lookup k (extractFields q rest)).getD "" := by
  unfold extractLine dictGetD
  rw [lookup_fillMissing]
  rcases List.lookup k (extractFields q rest) with _ | v
  · simp [hk]
  · rfl

/-! ## Token non-emptiness through `findAll` -/

theorem findAllAux_sound (m : List Char → Option (List Char × List Char)) :
    ∀ (fuel : Nat) (cs : List Char), ∀ tok ∈ findAllAux m fuel cs,
      ∃ cs' r, m cs' = some (tok, r) := by
  intro fuel
  induction fuel with
  | zero => intro cs tok h; simp [findAllAux] at h
  | succ f ih =>
    intro cs tok h
    match cs with
    | [] => simp [findAllAux] at h
    | c :: t =>
      simp only [findAllAux] at h
      rcases hm : m (c :: t) with _ | ⟨tok', r⟩ <;> simp only [hm] at h
      · exact ih t tok h
      · rcases List.mem_cons.mp h with he | hmem
        · exact ⟨c :: t, r, he ▸ hm⟩
        · exact ih _ tok hmem

theorem findAll_sound (m : List Char → Option (List Char × List Char))
    (cs : List Char) : ∀ tok ∈ findAll m cs, ∃ cs' r, m cs' = some (tok, r) :=
  findAllAux_sound m cs.length cs

theorem dateAt_tok_ne_nil {cs tok r} (h : dateAt cs = some (tok, r)) : tok ≠ [] := by
  unfold dateAt at h
  split at h
  · cases h
  · split at h
    · cases h
    · split at h
      · split_ifs at h
        cases h
        simp
      · cases h

theorem moneyAt_tok_ne_nil {cs tok r} (h : moneyAt cs = some (tok, r)) : tok ≠ [] := by
  unfold moneyAt at h
  dsimp only [] at h
  split_ifs at h with h1
  split at h
  · split_ifs at h
    cases h
    simp
  · cases h

theorem datesOf_tok_ne_nil {rest tok} (h : tok ∈ datesOf rest) : tok ≠ [] := by
  rcases findAll_sound dateAt rest tok h with ⟨cs', r, hm⟩
  exact dateAt_tok_ne_nil hm

theorem pricesOf_tok_ne_nil {rest tok} (h : tok ∈ pricesOf rest) : tok ≠ [] := by
  rcases findAll_sound moneyAt rest tok h with ⟨cs', r, hm⟩
  exact moneyAt_tok_ne_nil hm

theorem stringMk_ne_empty {tok : List Char} (h : tok ≠ []) : String.mk tok ≠ "" := by
  intro he
  exact h (String.ext_iff.mp he)

theorem lastD_mem {l : List (List Char)} (h : l ≠ []) : lastD l ∈ l := by
  unfold lastD
  rw [List.getLast?_eq_getLast _ h]
  simpa using List.getLast_mem h

theorem penultD_mem {l : List (List Char)} (h : 2 ≤ l.length) : penultD l ∈ l := by
  have hne : l.dropLast ≠ [] := by
    intro he
    have := congrArg List.length he
    simp [List.length_dropLast] at this
    omega
  unfold penultD
  rw [List.getLast?_eq_getLast _ hne]
  exact List.dropLast_subset l (by simpa using List.getLast_mem hne)

/-! ## Semantic characterization of the state-code context pattern -/

/-- The spec's description of a state-code context occurrence: the code
appears as a substring immediately preceded by a letter and immediately
followed by whitespace or the end of the string. -/
def CtxSpec (code cs : List Char) : Prop :=
  ∃ pre c suf, cs = pre ++ c :: (code ++ suf) ∧ isLetterC c = true ∧
    (suf = [] ∨ ∃ d t, suf = d :: t ∧ pyWs d = true)

theorem ctxOccurs_iff (code cs : List Char) :
    ctxOccurs code cs = true ↔ CtxSpec code cs := by
  induction cs with
  | nil =>
    simp only [ctxOccurs, CtxSpec]
    constructor
    · intro h; cases h
    · rintro ⟨pre, c, suf, h, -, -⟩
      exact absurd h.symm (by simp)
  | cons a t ih =>
    simp only [ctxOccurs, Bool.or_eq_true, Bool.and_eq_true]
    constructor
    · rintro (⟨⟨hl, hp⟩, hw⟩ | hrec)
      · obtain ⟨suf, hsuf⟩ := List.isPrefixOf_iff_prefix.mp hp
        refine ⟨[], a, suf, by simp [hsuf.symm], hl, ?_⟩
        rw [hsuf.symm, List.drop_left] at hw
        rcases suf with _ | ⟨d, t'⟩
        · exact Or.inl rfl
        · exact Or.inr ⟨d, t', rfl, hw⟩
      · obtain ⟨pre, c, suf, heq, hl, hw⟩ := ih.mp hrec
        exact ⟨a :: pre, c, suf, by simp [heq], hl, hw⟩
    · rintro ⟨pre, c, suf, heq, hl, hw⟩
      cases pre with
      | nil =>
        left
        simp only [List.nil_append] at heq
        obtain ⟨rfl, rfl⟩ := List.cons.inj heq
        refine ⟨⟨hl, List.isPrefixOf_iff_prefix.mpr ⟨suf, rfl⟩⟩, ?_⟩
        rw [List.drop_left]
        rcases hw with rfl | ⟨d, t', rfl, hd⟩
        · rfl
        · exact hd
      | cons p pre' =>
        right
        apply ih.mpr
        simp only [List.cons_append] at heq
        obtain ⟨rfl, rfl⟩ := List.cons.inj heq
        exact ⟨pre', c, suf, rfl, hl, hw⟩

/-! ## Key-set lemmas -/

theorem lookup_dictSet_isSome {d : Rec} {k k' v : String}
    (h : (List.lookup k (dictSet d k' v)).isSome = true) :
    k = k' ∨ (List.lookup k d).isSome = true := by
  rw [lookup_dictSet] at h
  split_ifs at h with he
  · exact Or.inl he
  · exact Or.inr h

theorem stepPartNum_isSome {rest d k}
    (h : (List.lookup k (stepPartNum rest d)).isSome = true) :
    k = "PartNum" ∨ (List.lookup k d).isSome = true := by
  unfold stepPartNum at h
  split_ifs at h
  · exact Or.inr h
  · exact lookup_dictSet_isSome h

theorem stepVendor_isSome {rest d k}
    (h : (List.lookup k (stepVendor rest d)).isSome = true) :
    k = "Vendor" ∨ k = "Qty" ∨ (List.lookup k d).isSome = true := by
  unfold stepVendor at h
  split at h
  · rcases lookup_dictSet_isSome h with rfl | h2
    · exact Or.inr (Or.inl rfl)
    · rcases lookup_dictSet_isSome h2 with rfl | h3
      · exact Or.inl rfl
      · exact Or.inr (Or.inr h3)
  · exact Or.inr (Or.inr h)

theorem stepDates_isSome {rest d k}
    (h : (List.lookup k (stepDates rest d)).isSome = true) :
    k = "AddDate" ∨ k = "Exp. Close" ∨ (List.lookup k d).isSome = true := by
  unfold stepDates at h
  split at h
  · exact Or.inr (Or.inr h)
  · split at h
    · rcases lookup_dictSet_isSome h with rfl | h2
      · exact Or.inl rfl
      · exact Or.inr (Or.inr h2)
    · rcases lookup_dictSet_isSome h with rfl | h2
      · exact Or.inr (Or.inl rfl)
      · rcases lookup_dictSet_isSome h2 with rfl | h3
        · exact Or.inl rfl
        · exact Or.inr (Or.inr h3)

theorem stepPrices_isSome {rest d k}
    (h : (List.lookup k (stepPrices rest d)).isSome = true) :
    k = "ListEach" ∨ k = "Ext_Price" ∨ (List.lookup k d).isSome = true := by
  unfold stepPrices at h
  split at h
  · exact Or.inr (Or.inr h)
  · rcases lookup_dictSet_isSome h with rfl | h2
    · exact Or.inl rfl
    · exact Or.inr (Or.inr h2)
  · rcases lookup_dictSet_isSome h with rfl | h2
    · exact Or.inr (Or.inl rfl)
    · rcases lookup_dictSet_isSome h2 with rfl | h3
      · exact Or.inl rfl
      · exact Or.inr (Or.inr h3)

theorem stepState_isSome {rest d k}
    (h : (List.lookup k (stepState rest d)).isSome = true) :
    k = "State" ∨ (List.lookup k d).isSome = true := by
  unfold stepState at h
  exact lookup_dictSet_isSome h

theorem stepMilestone_isSome {rest d k}
    (h : (List.lookup k (stepMilestone rest d)).isSome = true) :
    k = "Milestone" ∨ (List.lookup k d).isSome = true := by
  unfold stepMilestone at h
  exact lookup_dictSet_isSome h

theorem stepDescription_isSome {rest d k}
    (h : (List.lookup k (stepDescription rest d)).isSome = true) :
    k = "Description" ∨ (List.lookup k d).isSome = true := by
  unfold stepDescription at h
  split_ifs at h
  · split at h
    · exact lookup_dictSet_isSome h
    · exact Or.inr h
  · exact Or.inr h

theorem stepCustomer_isSome {rest d k}
    (h : (List.lookup k (stepCustomer rest d)).isSome = true) :
    k = "Customer Name" ∨ (List.lookup k d).isSome = true := by
  unfold stepCustomer at h
  split_ifs at h
  · split at h
    · exact lookup_dictSet_isSome h
    · exact Or.inr h
  · exact Or.inr h

theorem stepAddedBy_isSome {rest d k}
    (h : (List.lookup k (stepAddedBy rest d)).isSome = true) :
    k = "Added By" ∨ (List.lookup k d).isSome = true := by
  unfold stepAddedBy at h
  split_ifs at h
  · split at h
    · exact lookup_dictSet_isSome h
    · exact Or.inr h
  · exact Or.inr h

theorem stepSummary_isSome {rest d k}
    (h : (List.lookup k (stepSummary rest d)).isSome = true) :
    k = "Summary" ∨ (List.lookup k d).isSome = true := by
  unfold stepSummary at h
  split_ifs at h
  · split at h
    · exact lookup_dictSet_isSome h
    · exact Or.inr h
  · exact Or.inr h

theorem extractFields_keys (q : String) (rest : List Char) (k : String)
    (h : (List.lookup k (extractFields q rest)).isSome = true) : k ∈ headerNames := by
  unfold extractFields at h
  rcases stepSummary_isSome h with rfl | h
  · decide
  rcases stepAddedBy_isSome h with rfl | h
  · decide
  rcases stepCustomer_isSome h with rfl | h
  · decide
  rcases stepDescription_isSome h with rfl | h
  · decide
  rcases stepMilestone_isSome h with rfl | h
  · decide
  rcases stepState_isSome h with rfl | h
  · decide
  rcases stepPrices_isSome h with rfl | rfl | h
  · decide
  · decide
  rcases stepDates_isSome h with rfl | rfl | h
  · decide
  · decide
  rcases stepVendor_isSome h with rfl | rfl | h
  · decide
  · decide
  rcases stepPartNum_isSome h with rfl | h
  · decide
  -- base dict `{'Quote #': q}`
  by_cases hq : k = "Quote #"
  · subst hq; decide
  · exfalso
    rw [List.lookup_cons] at h
    have hb : (k == "Quote #") = false := by simp [hq]
    rw [hb] at h
    simp at h

theorem extractLine_keys (q : String) (rest : List Char) (k : String) :
    k ∈ (extractLine q rest).map Prod.fst ↔ k ∈ headerNames := by
  rw [mem_keys_iff_lookup]
  unfold extractLine
  rw [lookup_fillMissing]
  constructor
  · intro h
    rcases hl : List.lookup k (extractFields q rest) with _ | v
    · rw [hl] at h
      dsimp only [] at h
      split_ifs at h with hm
      · exact hm
      · cases h
    · exact extractFields_keys q rest k (by rw [hl]; rfl)
  · intro hm
    rcases hl : List.lookup k (extractFields q rest) with _ | v <;> simp [hl, hm]

theorem processLine_some {s : String} {r : Rec} (h : processLine s = some r) :
    ∃ qv restv, r = extractLine qv restv := by
  unfold processLine at h
  by_cases hn : isNoise (pyStrip s.data) = true
  · rw [if_pos hn] at h; cases h
  · rw [if_neg hn] at h
    rcases hb : boundaryMatch (pyStrip s.data) with _ | ⟨qn, rest⟩ <;> simp only [hb] at h
    · cases h
    · split_ifs at h
      exact ⟨_, _, (Option.some.inj h).symm⟩

theorem buildPositionalAux_lookup_not_mem (cleaned : List String) :
    ∀ (hs : List String) (i : Nat) (d : Rec) (k : String), k ∉ hs →
      List.lookup k (buildPositionalAux cleaned i hs d) = List.lookup k d := by
  intro hs
  induction hs with
  | nil => intro i d k _; rfl
  | cons h t ih =>
    intro i d k hk
    rw [buildPositionalAux, ih (i + 1) _ k (fun hm => hk (List.mem_cons_of_mem h hm)),
      lookup_dictSet, if_neg (fun he => hk (by rw [he]; exact List.mem_cons_self h t))]

theorem buildPositionalAux_isSome (cleaned : List String) :
    ∀ (hs : List String) (i : Nat) (d : Rec) (k : String),
      (List.lookup k (buildPositionalAux cleaned i hs d)).isSome = true →
      k ∈ hs ∨ (List.lookup k d).isSome = true := by
  intro hs
  induction hs with
  | nil => intro i d k h; exact Or.inr h
  | cons h t ih =>
    intro i d k hk
    rw [buildPositionalAux] at hk
    rcases ih (i + 1) _ k hk with hm | hs2
    · exact Or.inl (List.mem_cons_of_mem h hm)
    · rcases lookup_dictSet_isSome hs2 with rfl | h3
      · exact Or.inl (List.mem_cons_self _ _)
      · exact Or.inr h3

theorem buildPositionalAux_mem (cleaned : List String) :
    ∀ (hs : List String) (i : Nat) (d : Rec) (k : String), k ∈ hs →
      (List.lookup k (buildPositionalAux cleaned i hs d)).isSome = true := by
  intro hs
  induction hs with
  | nil => intro i d k h; cases h
  | cons h t ih =>
    intro i d k hk
    rw [buildPositionalAux]
    by_cases hkt : k ∈ t
    · exact ih (i + 1) _ k hkt
    · rcases List.mem_cons.mp hk with rfl | hm
      · rw [buildPositionalAux_lookup_not_mem cleaned t _ _ _ hkt,
          lookup_dictSet, if_pos rfl]
        rfl
      · exact absurd hm hkt

theorem buildPositional_keys (cleaned : List String) (k : String) :
    k ∈ (buildPositional cleaned).map Prod.fst ↔ k ∈ headerNames := by
  rw [mem_keys_iff_lookup]
  constructor
  · intro h
    rcases buildPositionalAux_isSome cleaned headerNames 0 [] k h with hm | hs
    · exact hm
    · cases hs
  · exact buildPositionalAux_mem cleaned headerNames 0 [] k

theorem buildPositionalAux_get (cleaned : List String) :
    ∀ (hs : List String) (i : Nat) (d : Rec) (j : Nat) (hj : j < hs.length),
      hs.Nodup →
      List.lookup (hs.get ⟨j, hj⟩) (buildPositionalAux cleaned i hs d) =
        some (cleaned.getD (i + j) "") := by
  intro hs
  induction hs with
  | nil => intro i d j hj _; cases hj
  | cons h t ih =>
    intro i d j hj hnd
    rw [buildPositionalAux]
    cases j with
    | zero =>
      have hnt : h ∉ t := (List.nodup_cons.mp hnd).1
      rw [show (h :: t).get ⟨0, hj⟩ = h from rfl,
        buildPositionalAux_lookup_not_mem cleaned t _ _ _ hnt,
        lookup_dictSet, if_pos rfl, Nat.add_zero]
    | succ j' =>
      have hnd2 := (List.nodup_cons.mp hnd).2
      rw [show (h :: t).get ⟨j' + 1, hj⟩ = t.get ⟨j', Nat.lt_of_succ_lt_succ hj⟩ from rfl,
        ih (i + 1) _ j' (Nat.lt_of_succ_lt_succ hj) hnd2]
      have harith : i + 1 + j' = i + (j' + 1) := by omega
      rw [harith]

theorem tableRowRec_some {row : List (Option String)} {r : Rec}
    (h : tableRowRec row = some r) : r = buildPositional (row.map cleanCell) := by
  unfold tableRowRec at h
  split at h
  · cases h
  · dsimp only [] at h
    split_ifs at h
    exact (Option.some.inj h).symm

/-! ## Claims -/

/-! ## Characterization of the record-boundary match -/

theorem all_take_of_le_takeWhile (p : Char → Bool) :
    ∀ (cs : List Char) (j : Nat), j ≤ (cs.takeWhile p).length →
      ∀ c ∈ cs.take j, p c = true := by
  intro cs
  induction cs with
  | nil => intro j _ c hc; simp at hc
  | cons a t ih =>
    intro j hj c hc
    cases j with
    | zero => simp at hc
    | succ j' =>
      by_cases hp : p a = true
      · rw [List.takeWhile_cons_of_pos hp] at hj
        simp only [List.length_cons, Nat.succ_le_succ_iff] at hj
        rcases List.mem_cons.mp (by simpa using hc) with rfl | hm
        · exact hp
        · exact ih j' hj c hm
      · rw [List.takeWhile_cons_of_neg (by simpa using hp)] at hj
        simp at hj

theorem length_takeWhile_le' (p : Char → Bool) (cs : List Char) :
    (cs.takeWhile p).length ≤ cs.length :=
  List.IsPrefix.length_le ( List.takeWhile_prefix p)

/-- The spec's record-boundary shape: exactly seven digits, at least one
whitespace character, then at least one further character. -/
def BoundaryShape (l : List Char) : Prop :=
  ∃ d w r, l = d ++ w ++ r ∧ d.length = 7 ∧ (∀ c ∈ d, isDigitC c = true) ∧
    w ≠ [] ∧ (∀ c ∈ w, pyWs c = true) ∧ r ≠ []

theorem boundaryMatch_isSome_iff (l : List Char) :
    (boundaryMatch l).isSome = true ↔ BoundaryShape l := by
  constructor
  · intro h
    unfold boundaryMatch at h
    dsimp only [] at h
    split at h
    case isFalse => simp at h
    case isTrue hc =>
      simp only [Bool.and_eq_true, decide_eq_true_eq] at hc
      obtain ⟨⟨hlen, hdig⟩, hhead⟩ := hc
      have hws1 : 1 ≤ ((l.drop 7).takeWhile pyWs).length := by
        rcases hr : l.drop 7 with _ | ⟨c, t⟩
        · rw [hr] at hhead; cases hhead
        · simp only [hr] at hhead
          rw [List.takeWhile_cons_of_pos hhead]
          simp
      split at h
      case isFalse he =>
        -- non-empty tail after the whitespace run
        have h3 := length_takeWhile_le' pyWs (l.drop 7)
        have hlen7 : l.take 7 ++ (l.drop 7).take (((l.drop 7).takeWhile pyWs).length) ++
            (l.drop 7).drop (((l.drop 7).takeWhile pyWs).length) = l := by
          rw [List.append_assoc, List.take_append_drop, List.take_append_drop]
        refine ⟨l.take 7, (l.drop 7).take (((l.drop 7).takeWhile pyWs).length),
          (l.drop 7).drop (((l.drop 7).takeWhile pyWs).length), hlen7.symm, hlen, ?_, ?_, ?_, ?_⟩
        · intro c hc
          exact (List.all_eq_true.mp hdig) c hc
        · intro he2
          have hl2 := congrArg List.length he2
          rw [List.length_take, List.length_nil] at hl2
          omega
        · exact all_take_of_le_takeWhile pyWs (l.drop 7) _ (by omega)
        · simpa using he
      case isTrue he =>
        split at h
        case isFalse => simp at h
        case isTrue h2 =>
          -- all-whitespace tail, backtrack one character
          have hlen7 : l.take 7 ++ (l.drop 7).take (((l.drop 7).takeWhile pyWs).length - 1) ++
              (l.drop 7).drop (((l.drop 7).takeWhile pyWs).length - 1) = l := by
            rw [List.append_assoc, List.take_append_drop, List.take_append_drop]
          have hle : (l.drop 7).length ≤ ((l.drop 7).takeWhile pyWs).length :=
            List.drop_eq_nil_iff.mp (by simpa using he)
          have h3 := length_takeWhile_le' pyWs (l.drop 7)
          refine ⟨l.take 7, (l.drop 7).take (((l.drop 7).takeWhile pyWs).length - 1),
            (l.drop 7).drop (((l.drop 7).takeWhile pyWs).length - 1), hlen7.symm, hlen, ?_, ?_, ?_, ?_⟩
          · intro c hc
            exact (List.all_eq_true.mp hdig) c hc
          · intro he2
            have hl2 := congrArg List.length he2
            rw [List.length_take, List.length_nil] at hl2
            omega
          · exact all_take_of_le_takeWhile pyWs (l.drop 7) _ (by omega)
          · intro he2
            have hl2 := congrArg List.length he2
            rw [List.length_drop, List.length_nil] at hl2
            omega
  · rintro ⟨d, w, r, rfl, hd7, hdig, hwne, hws, hrne⟩
    unfold boundaryMatch
    dsimp only []
    have htake : (d ++ w ++ r).take 7 = d := by
      rw [List.append_assoc]
      exact List.take_left' hd7
    have hdrop : (d ++ w ++ r).drop 7 = w ++ r := by
      rw [List.append_assoc]
      exact List.drop_left' hd7
    rw [htake, hdrop]
    rcases w with _ | ⟨wc, wt⟩
    · exact absurd rfl hwne
    simp only [List.cons_append]
    split_ifs with h1 h2 h3
    · simp
    · exfalso
      apply h3
      have hle : (wc :: (wt ++ r)).length ≤ ((wc :: (wt ++ r)).takeWhile pyWs).length :=
        List.drop_eq_nil_iff.mp (by simpa using h2)
      have hr1 : 1 ≤ r.length := by
        rcases r with _ | ⟨rc, rt⟩
        · exact absurd rfl hrne
        · simp
      simp only [List.length_cons, List.length_append] at hle
      omega
    · simp
    · exfalso
      apply h1
      simp only [Bool.and_eq_true]
      refine ⟨⟨by simp [hd7], List.all_eq_true.mpr fun c hc => hdig c hc⟩, ?_⟩
      simpa using hws wc (by simp)

/-- C2: every record emitted by either path carries exactly the 14 header
schema keys (absent data is an empty-string value, never a missing key),
and the 14-name header list is returned for every document, including the
zero-record case. -/
theorem c2_schema_invariant (pages : List Page) :
    (smartExtract pages).1 = headerNames ∧
    ∀ r ∈ (smartExtract pages).2, ∀ k, (k ∈ r.map Prod.fst ↔ k ∈ headerNames) := by
  refine ⟨rfl, ?_⟩
  intro r hr k
  unfold smartExtract at hr
  dsimp only [] at hr
  split_ifs at hr with he
  · -- table fallback path
    unfold fallbackPass at hr
    rcases List.mem_flatMap.mp hr with ⟨pg, -, hr2⟩
    rcases List.mem_flatMap.mp hr2 with ⟨tb, -, hr3⟩
    rcases List.mem_filterMap.mp hr3 with ⟨row, -, hrow⟩
    rw [tableRowRec_some hrow]
    exact buildPositional_keys (row.map cleanCell) k
  · -- line-based path
    unfold linePass at hr
    rcases List.mem_flatMap.mp hr with ⟨pg, -, hr2⟩
    rcases hpt : pg.text with _ | t
    · simp only [hpt] at hr2
      cases hr2
    · simp only [hpt] at hr2
      split_ifs at hr2 with ht
      · cases hr2
      · rcases List.mem_filterMap.mp hr2 with ⟨lcs, -, hl⟩
        rcases processLine_some hl with ⟨qv, restv, hre⟩
        rw [hre]
        exact extractLine_keys qv restv k

/-- Witness for C2 at a concrete single-line document. -/
theorem c2_witness :
    "PartNum" ∈ (extractLine "1234567" "X 1.00".data).map Prod.fst ∧
    "Quote #" ∈ (extractLine "1234567" "X 1.00".data).map Prod.fst := by
  have hm : extractLine "1234567" "X 1.00".data ∈
      (smartExtract [⟨some "1234567 X 1.00", []⟩]).2 := by decide
  have h := (c2_schema_invariant [⟨some "1234567 X 1.00", []⟩]).2 _ hm
  exact ⟨(h "PartNum").mpr (by decide), (h "Quote #").mpr (by decide)⟩

/-- The spec's row-qualification condition for the table fallback: the
first cell, trimmed, is non-empty, all digits, and of length at least
six. -/
def RowQualifies (row : List (Option String)) : Prop :=
  ∃ c0 crest, row = c0 :: crest ∧ cleanCell c0 ≠ "" ∧
    (∀ ch ∈ (cleanCell c0).data, isDigitC ch = true) ∧ 6 ≤ (cleanCell c0).length

/-- C6: the table fallback runs exactly when the document-wide line pass
produced zero records; a table row yields a record iff its trimmed first
cell is all digits with length at least 6; a qualifying row's cells are
mapped positionally onto the 14-name header schema, extra cells dropped,
missing cells defaulted to the empty string. -/
theorem c6_table_fallback (pages : List Page) (row : List (Option String)) :
    (linePass pages ≠ [] → (smartExtract pages).2 = linePass pages) ∧
    (linePass pages = [] → (smartExtract pages).2 = fallbackPass pages) ∧
    ((∃ r, tableRowRec row = some r) ↔ RowQualifies row) ∧
    (∀ r, tableRowRec row = some r → ∀ i (hi : i < headerNames.length),
       List.lookup (headerNames.get ⟨i, hi⟩) r = some ((row.map cleanCell).getD i "")) := by
  refine ⟨?_, ?_, ?_, ?_⟩
  · intro hne
    unfold smartExtract
    dsimp only []
    rw [if_neg (by simpa [List.isEmpty_iff] using hne)]
  · intro he
    unfold smartExtract
    dsimp only []
    rw [if_pos (by simpa [List.isEmpty_iff] using he)]
  · constructor
    · rintro ⟨r, hr⟩
      rcases row with _ | ⟨c0, crest⟩
      · simp [tableRowRec] at hr
      · unfold tableRowRec at hr
        dsimp only [] at hr
        split_ifs at hr with hq
        simp only [Bool.and_eq_true, decide_eq_true_eq] at hq
        obtain ⟨⟨hne, hdig⟩, hlen⟩ := hq
        refine ⟨c0, crest, rfl, by simpa using hne, ?_, by simpa using hlen⟩
        intro ch hch
        exact List.all_eq_true.mp (by simpa using hdig) ch hch

    · rintro ⟨c0, crest, rfl, hne, hdig, hlen⟩
      refine ⟨buildPositional ((c0 :: crest).map cleanCell), ?_⟩
      unfold tableRowRec
      dsimp only []
      rw [if_pos]
      simp only [List.map_cons, List.headD_cons, Bool.and_eq_true, decide_eq_true_eq]
      exact ⟨⟨by simpa using hne, List.all_eq_true.mpr hdig⟩, hlen⟩
  · intro r hr i hi
    rw [tableRowRec_some hr]
    have hnd : headerNames.Nodup := by decide
    simpa using buildPositionalAux_get (row.map cleanCell) headerNames 0 [] i hi hnd

/-- Witness for C6: a document with no text and one table whose row has
first cell `"9876543"` and 14 further cells activates the fallback and
maps the cells positionally. -/
theorem c6_witness :
    (smartExtract [⟨none,
        [[[some "9876543", some "c1", some "c2", some "c3", some "c4", some "c5",
           some "c6", some "c7", some "c8", some "c9", some "c10", some "c11",
           some "c12", some "c13", some "c14"]]]⟩]).2 =
      fallbackPass [⟨none,
        [[[some "9876543", some "c1", some "c2", some "c3", some "c4", some "c5",
           some "c6", some "c7", some "c8", some "c9", some "c10", some "c11",
           some "c12", some "c13", some "c14"]]]⟩] ∧
    RowQualifies
      [some "9876543", some "c1", some "c2", some "c3", some "c4", some "c5",
       some "c6", some "c7", some "c8", some "c9", some "c10", some "c11",
       some "c12", some "c13", some "c14"] := by
  constructor
  · exact (c6_table_fallback _ []).2.1 (by decide)
  · exact ((c6_table_fallback [] _).2.2.1).mp
      ⟨buildPositional ([some "9876543", some "c1", some "c2", some "c3", some "c4",
          some "c5", some "c6", some "c7", some "c8", some "c9", some "c10",
          some "c11", some "c12", some "c13", some "c14"].map cleanCell), by decide⟩

/-! ## Soundness of the lazy sandwich search (for the customer field) -/

theorem firstSome_mem {f : α → Option β} :
    ∀ {xs : List α} {b : β}, firstSome f xs = some b → ∃ x ∈ xs, f x = some b := by
  intro xs
  induction xs with
  | nil => intro b h; cases h
  | cons a t ih =>
    intro b h
    rw [firstSome] at h
    rcases hf : f a with _ | b' <;> rw [hf] at h
    · rcases ih h with ⟨x, hx, hfx⟩
      exact ⟨x, List.mem_cons_of_mem a hx, hfx⟩
    · exact ⟨a, List.mem_cons_self a t, hf.trans h⟩

theorem scanSearch_some {f : List Char → Option β} :
    ∀ {cs : List Char} {b : β}, scanSearch f cs = some b →
      ∃ n, f (cs.drop n) = some b := by
  intro cs
  induction cs with
  | nil => intro b h; exact ⟨0, h⟩
  | cons c t ih =>
    intro b h
    rw [scanSearch] at h
    rcases hf : f (c :: t) with _ | b' <;> rw [hf] at h
    · rcases ih h with ⟨n, hn⟩
      exact ⟨n + 1, by simpa using hn⟩
    · exact ⟨0, hf.trans h⟩

theorem mem_rangeDesc {n j : Nat} : j ∈ rangeDesc n ↔ 1 ≤ j ∧ j ≤ n := by
  simp only [rangeDesc, List.mem_map, List.mem_reverse, List.mem_range]
  constructor
  · rintro ⟨a, ha, rfl⟩
    omega
  · intro ⟨h1, h2⟩
    exact ⟨j - 1, by omega, by omega⟩

theorem mem_rangeAsc {n j : Nat} : j ∈ rangeAsc n ↔ 1 ≤ j ∧ j ≤ n := by
  simp only [rangeAsc, List.mem_map, List.mem_range]
  constructor
  · rintro ⟨a, ha, rfl⟩
    omega
  · intro ⟨h1, h2⟩
    exact ⟨j - 1, by omega, by omega⟩

theorem take_ne_nil_of_le {cs : List Char} {j : Nat} (h1 : 1 ≤ j)
    (h2 : j ≤ cs.length) : cs.take j ≠ [] := by
  intro he
  have := congrArg List.length he
  rw [List.length_take, List.length_nil] at this
  omega

theorem sandwichAt_decomp {lit : List Char} {endT : List Char → Bool} {cs g : List Char}
    (h : sandwichAt lit endT cs = some g) :
    ∃ w1 w2 suf, cs = lit ++ w1 ++ g ++ w2 ++ suf ∧
      w1 ≠ [] ∧ (∀ c ∈ w1, pyWs c = true) ∧ g ≠ [] ∧
      w2 ≠ [] ∧ (∀ c ∈ w2, pyWs c = true) ∧ endT suf = true := by
  unfold sandwichAt at h
  split_ifs at h with hp
  try dsimp only [] at h
  obtain ⟨j, hjmem, hj⟩ := firstSome_mem h
  try dsimp only [] at hj
  obtain ⟨l, hlmem, hl⟩ := firstSome_mem hj
  try dsimp only [] at hl
  split_ifs at hl with hmid
  obtain ⟨k, hkmem, hk⟩ := firstSome_mem hl
  split_ifs at hk with hend
  obtain rfl := (Option.some.inj hk)
  simp only [Bool.and_eq_true, decide_eq_true_eq] at hmid
  obtain ⟨hmidlen, -⟩ := hmid
  obtain ⟨hj1, hjle⟩ := mem_rangeDesc.mp hjmem
  obtain ⟨hl1, hlle⟩ := mem_rangeAsc.mp hlmem
  obtain ⟨hk1, hkle⟩ := mem_rangeDesc.mp hkmem
  have hcs : cs = lit ++ cs.drop lit.length := by
    obtain ⟨t, ht⟩ := List.isPrefixOf_iff_prefix.mp hp
    rw [ht.symm, List.drop_left]
  have h3 := length_takeWhile_le' pyWs (cs.drop lit.length)
  have h3k := length_takeWhile_le' pyWs (((cs.drop lit.length).drop j).drop l)
  refine ⟨(cs.drop lit.length).take j,
    (((cs.drop lit.length).drop j).drop l).take k,
    (((cs.drop lit.length).drop j).drop l).drop k, ?_, ?_, ?_, ?_, ?_, ?_, hend⟩
  · have hr1 : cs.drop lit.length =
        (cs.drop lit.length).take j ++ (((cs.drop lit.length).drop j).take l ++
          ((((cs.drop lit.length).drop j).drop l).take k ++
            (((cs.drop lit.length).drop j).drop l).drop k)) := by
      rw [List.take_append_drop, List.take_append_drop, List.take_append_drop]
    conv_lhs => rw [hcs, hr1]
    simp [List.append_assoc]
  · exact take_ne_nil_of_le hj1 (Nat.le_trans hjle h3)
  · exact all_take_of_le_takeWhile pyWs _ j hjle
  · intro he
    rw [he] at hmidlen
    simp at hmidlen
    omega
  · exact take_ne_nil_of_le hk1 (Nat.le_trans hkle h3k)
  · exact all_take_of_le_takeWhile pyWs _ k hkle

/-- Start index of the state-code detection occurrence: the position of
the code in the leftmost match of `[a-zA-Z](CODE)(?:\s|$)`. -/
def detectIdx (code : List Char) : List Char → Option Nat
  | [] => none
  | c :: t =>
    if isLetterC c && code.isPrefixOf t &&
        (match t.drop code.length with
         | [] => true
         | d :: _ => pyWs d) then some 1
    else (detectIdx code t).map (· + 1)

/-- Start index of the first money token found by the findall scan. -/
def firstMoneyIdx : List Char → Option Nat
  | [] => none
  | c :: t =>
    match moneyAt (c :: t) with
    | some _ => some 0
    | none => (firstMoneyIdx t).map (· + 1)

/-- C7 as the claim reads: the substring strictly between the state-code
detection occurrence and the first money token of the line, trimmed
(empty when no state or no money was found). -/
def claimCustomerC7 (rest : List Char) : String :=
  if stateOf rest ≠ "" && !(pricesOf rest).isEmpty then
    match detectIdx (stateOf rest).data rest, firstMoneyIdx rest with
    | some i, some m =>
      pyStripS (String.mk ((rest.drop (i + (stateOf rest).data.length)).take
        (m - (i + (stateOf rest).data.length))))
    | _, _ => ""
  else ""

/-- C7 counterexample: on `"CA ab xCA Bob 2.00"` the detection occurrence
of `CA` is the one inside `xCA`, the first money token is `2.00`, and the
substring strictly between them trims to `"Bob"`; but the code's customer
search re-anchors at the leftmost bare `CA` and yields
`"ab xCA Bob"`. -/
theorem c7_counterexample :
    dictGetD (extractLine "1234567" "CA ab xCA Bob 2.00".data) "Customer Name" =
      "ab xCA Bob" ∧
    claimCustomerC7 "CA ab xCA Bob 2.00".data = "Bob" ∧
    ("ab xCA Bob" : String) ≠ "Bob" :=
  ⟨by decide, by decide, by decide⟩

/-- C7 amended: Customer Name is attempted only when a state code was
found and at least one money token exists; it then equals the trimmed
capture of the leftmost match of state-code letters, whitespace, lazy
text, whitespace, money token — i.e. the text strictly between some
occurrence of the state-code letters (not necessarily the detection
occurrence) and a money token following it (not necessarily the line's
first money token) — and stays empty when that search fails. -/
theorem c7_customer_amended (q : String) (rest : List Char) :
    ((stateOf rest = "" ∨ pricesOf rest = []) →
      dictGetD (extractLine q rest) "Customer Name" = "") ∧
    (stateOf rest ≠ "" → pricesOf rest ≠ [] →
      (∀ g, scanSearch
            (sandwichAt (stateOf rest).data (fun r => (moneyAt r).isSome)) rest = some g →
        dictGetD (extractLine q rest) "Customer Name" = pyStripS (String.mk g) ∧
        ∃ pre w1 w2 suf, rest = pre ++ (stateOf rest).data ++ w1 ++ g ++ w2 ++ suf ∧
          w1 ≠ [] ∧ (∀ c ∈ w1, pyWs c = true) ∧ g ≠ [] ∧
          w2 ≠ [] ∧ (∀ c ∈ w2, pyWs c = true) ∧ (moneyAt suf).isSome = true) ∧
      (scanSearch
          (sandwichAt (stateOf rest).data (fun r => (moneyAt r).isSome)) rest = none →
        dictGetD (extractLine q rest) "Customer Name" = "")) := by
  have hget : dictGetD (extractLine q rest) "Customer Name" =
      (List.lookup "Customer Name" (extractFields q rest)).getD "" :=
    extractLine_getD_of_mem q rest _ (by decide)
  refine ⟨?_, ?_⟩
  · intro hcond
    rw [hget, extractFields_Customer]
    rw [if_neg ?_]
    · rfl
    · simp only [Bool.and_eq_true, decide_eq_true_eq, Bool.not_eq_true', not_and]
      intro hs
      rcases hcond with hc | hc
      · exact absurd hc hs
      · simp [hc]
  · intro hs hpne
    have hcond : (decide (stateOf rest ≠ "") && !(pricesOf rest).isEmpty) = true := by
      simp only [Bool.and_eq_true, decide_eq_true_eq]
      exact ⟨hs, by simpa [List.isEmpty_iff] using hpne⟩
    constructor
    · intro g hsearch
      constructor
      · rw [hget, extractFields_Customer, if_pos hcond, hsearch]
        rfl
      · obtain ⟨n, hn⟩ := scanSearch_some hsearch
        obtain ⟨w1, w2, suf, hdec, hw1, hws1, hg, hw2, hws2, hend⟩ := sandwichAt_decomp hn
        refine ⟨rest.take n, w1, w2, suf, ?_, hw1, hws1, hg, hw2, hws2, hend⟩
        conv_lhs => rw [← List.take_append_drop n rest]
        rw [hdec]
        simp [List.append_assoc]
    · intro hsearch
      rw [hget, extractFields_Customer, if_pos hcond, hsearch]
      rfl

/-- Witness for C7 (amended) at a concrete remainder where the customer
search succeeds. -/
theorem c7_witness :
    dictGetD (extractLine "1234567" "x aCA Bob 2.00".data) "Customer Name" = "Bob" := by
  have h := (((c7_customer_amended "1234567" "x aCA Bob 2.00".data).2
      (by decide) (by decide)).1 "Bob".data (by decide)).1
  rw [h]
  decide

/-- The remainder of the spec's end-to-end example (§8). -/
def c1rest : List Char :=
  ("WIDGET-99 A cool widget AVA-C 5 1/2/24 3/4/24 Jane Doe CA Acme Corp " ++
   "10.00 50.00 SUM1 Incomplete - 10%").data

/-- C1 counterexample: on the spec's end-to-end example the extractor
yields State = `""`, not `"CA"`: in this remainder `"CA"` is preceded by
a space, and the state-code pattern demands a letter immediately before
the code. -/
theorem c1_counterexample :
    dictGetD (extractLine "1234567" c1rest) "State" = "" ∧ ("" : String) ≠ "CA" :=
  ⟨by decide, by decide⟩

/-- C1 amended: on quote number `"1234567"` the spec's end-to-end example
yields PartNum = `"WIDGET-99"`, Description = `"A cool widget"` (the
part-number/vendor anchored substring), Vendor = `"AVA-C"`, Qty = `"5"`,
AddDate = `"1/2/24"`, Exp. Close = `"3/4/24"`, ListEach = `"10.00"`,
Ext_Price = `"50.00"`, Summary = `"SUM1"`, Milestone =
`"Incomplete - 10%"`, and — because no state code occurs preceded by a
letter and followed by whitespace — State, Customer Name and Added By are
all the empty string. -/
theorem c1_amended_end_to_end :
    dictGetD (extractLine "1234567" c1rest) "Quote #" = "1234567" ∧
    dictGetD (extractLine "1234567" c1rest) "PartNum" = "WIDGET-99" ∧
    dictGetD (extractLine "1234567" c1rest) "Description" = "A cool widget" ∧
    dictGetD (extractLine "1234567" c1rest) "Vendor" = "AVA-C" ∧
    dictGetD (extractLine "1234567" c1rest) "Qty" = "5" ∧
    dictGetD (extractLine "1234567" c1rest) "AddDate" = "1/2/24" ∧
    dictGetD (extractLine "1234567" c1rest) "Exp. Close" = "3/4/24" ∧
    dictGetD (extractLine "1234567" c1rest) "Added By" = "" ∧
    dictGetD (extractLine "1234567" c1rest) "State" = "" ∧
    dictGetD (extractLine "1234567" c1rest) "Customer Name" = "" ∧
    dictGetD (extractLine "1234567" c1rest) "ListEach" = "10.00" ∧
    dictGetD (extractLine "1234567" c1rest) "Ext_Price" = "50.00" ∧
    dictGetD (extractLine "1234567" c1rest) "Summary" = "SUM1" ∧
    dictGetD (extractLine "1234567" c1rest) "Milestone" = "Incomplete - 10%" := by
  have hrec : extractLine "1234567" c1rest =
      [("Quote #", "1234567"), ("PartNum", "WIDGET-99"), ("Vendor", "AVA-C"), ("Qty", "5"),
       ("AddDate", "1/2/24"), ("Exp. Close", "3/4/24"), ("ListEach", "10.00"),
       ("Ext_Price", "50.00"), ("State", ""), ("Milestone", "Incomplete - 10%"),
       ("Description", "A cool widget"), ("Summary", "SUM1"), ("Added By", ""),
       ("Customer Name", "")] := by decide
  rw [hrec]
  decide

/-- C9: the whole extraction and the line classifier are pure functions:
identical inputs give identical outputs. -/
theorem c9_determinism :
    (∀ p1 p2 : List Page, p1 = p2 → smartExtract p1 = smartExtract p2) ∧
    (∀ l1 l2 : List Char, l1 = l2 → isNoise l1 = isNoise l2) :=
  ⟨fun _ _ h => congrArg smartExtract h, fun _ _ h => congrArg isNoise h⟩

/-- Witness for C9 at a concrete document and a concrete line. -/
theorem c9_witness :
    smartExtract [⟨some "1234567 A 1.00", []⟩] = smartExtract [⟨some "1234567 A 1.00", []⟩] ∧
    isNoise "Printed: x".data = isNoise "Printed: x".data :=
  ⟨c9_determinism.1 _ _ rfl, c9_determinism.2 _ _ rfl⟩

theorem pyLower_eq_empty_iff (v : String) : pyLower v = "" ↔ v = "" := by
  constructor
  · intro h
    have hd : v.data.map lowerC = [] := congrArg String.data h
    exact String.ext (List.map_eq_nil.mp hd)
  · rintro rfl
    rfl

/-- The search/filter operation as the spec's words describe it (§6): the
subsequence of records whose value at the key, lower-cased, contains the
lower-cased query; an empty key or an empty query returns all records
unchanged. -/
def searchSpec (rows : List Rec) (column value : String) : List Rec :=
  if column = "" ∨ value = "" then rows
  else rows.filter (fun r => containsSub (pyLower value).data (pyLower (dictGetD r column)).data)

/-- C8: `search_data` returns exactly the subsequence, in original order,
of records whose value at the key, lower-cased, contains the lower-cased
query; an empty key or query returns all records unchanged. -/
theorem c8_search_filter (rows : List Rec) (column value : String) :
    searchData rows column value = searchSpec rows column value ∧
    (searchData rows column value).Sublist rows := by
  constructor
  · unfold searchData searchSpec
    dsimp only []
    by_cases hc : column = ""
    · simp [hc]
    · by_cases hv : value = ""
      · simp [hc, hv, pyLower]
      · have hsv : ¬ pyLower value = "" := fun h => hv ((pyLower_eq_empty_iff value).mp h)
        simp [hc, hv, hsv]
  · unfold searchData
    dsimp only []
    split_ifs
    · exact List.Sublist.refl rows
    · exact List.filter_sublist rows

theorem boundaryMatch_some {l qn rest : List Char}
    (h : boundaryMatch l = some (qn, rest)) :
    qn = l.take 7 ∧ (∀ c ∈ qn, isDigitC c = true) ∧ ∃ k, 7 ≤ k ∧ rest = l.drop k := by
  unfold boundaryMatch at h
  dsimp only [] at h
  split at h
  case isFalse => cases h
  case isTrue hc =>
    simp only [Bool.and_eq_true, decide_eq_true_eq] at hc
    obtain ⟨⟨hlen, hdig⟩, -⟩ := hc
    split at h
    case isFalse =>
      obtain ⟨rfl, rfl⟩ := Prod.mk.inj (Option.some.inj h)
      exact ⟨rfl, fun c hc => List.all_eq_true.mp hdig c hc,
        ⟨7 + ((l.drop 7).takeWhile pyWs).length, by omega, by rw [List.drop_drop]⟩⟩
    case isTrue =>
      split at h
      case isFalse => cases h
      case isTrue =>
        obtain ⟨rfl, rfl⟩ := Prod.mk.inj (Option.some.inj h)
        exact ⟨rfl, fun c hc => List.all_eq_true.mp hdig c hc,
          ⟨7 + (((l.drop 7).takeWhile pyWs).length - 1), by omega, by rw [List.drop_drop]⟩⟩

theorem containsSub_of_prefix_drop (needle : List Char) :
    ∀ (hay : List Char) (k : Nat), needle.isPrefixOf (hay.drop k) = true →
      containsSub needle hay = true := by
  intro hay
  induction hay with
  | nil =>
    intro k h
    simp only [List.drop_nil] at h
    rcases needle with _ | ⟨n, nt⟩
    · rfl
    · cases h
  | cons c t ih =>
    intro k h
    cases k with
    | zero =>
      simp only [List.drop_zero] at h
      simp [containsSub, h]
    | succ k' =>
      simp only [List.drop_succ_cons] at h
      simp [containsSub, ih k' h]

/-- C3: a trimmed, non-noise, newline-free line begins a record exactly
when it starts with seven ASCII digits followed by at least one
whitespace character and at least one further character; on a match the
seven-digit run is the quote number.  In particular `"1234567 WIDGET"`
starts a record with quote number `"1234567"`, while `"123456 WIDGET"`
and `"1234567"` do not match. -/
theorem c3_record_boundary :
    (∀ l : List Char, pyStrip l = l → isNoise l = false → '\n' ∉ l →
      (((processLine (String.mk l)).isSome = true ↔ BoundaryShape l) ∧
       (∀ qn rest, boundaryMatch l = some (qn, rest) →
          qn = l.take 7 ∧ ∀ c ∈ qn, isDigitC c = true))) ∧
    processLine "1234567 WIDGET" = some (extractLine "1234567" "WIDGET".data) ∧
    processLine "123456 WIDGET" = none ∧
    processLine "1234567" = none := by
  refine ⟨?_, by decide, by decide, by decide⟩
  intro l hstrip hnoise _
  constructor
  · unfold processLine
    rw [show (String.mk l).data = l from rfl, hstrip]
    dsimp only []
    rw [hnoise]
    simp only [Bool.false_eq_true, if_false]
    rcases hb : boundaryMatch l with _ | ⟨qn, rest⟩
    · constructor
      · intro h; cases h
      · intro hsh
        have := (boundaryMatch_isSome_iff l).mpr hsh
        rw [hb] at this
        cases this
    · obtain ⟨-, -, k, -, hk⟩ := boundaryMatch_some hb
      have hqt : ("Quote Type:".data.isPrefixOf rest) = false := by
        rcases hqt : ("Quote Type:".data.isPrefixOf rest) with _ | _
        · rfl
        · exfalso
          have hcontains : containsSub "Quote Type:".data l = true :=
            containsSub_of_prefix_drop _ l k (hk ▸ hqt)
          rw [isNoise] at hnoise
          simp only [hcontains, Bool.or_true, Bool.true_or, Bool.or_eq_false_iff] at hnoise
          cases hnoise
      simp only [hqt, Bool.false_eq_true, if_false, Option.isSome_some, true_iff]
      exact (boundaryMatch_isSome_iff l).mp (by rw [hb]; rfl)
  · intro qn rest hb
    obtain ⟨h1, h2, -⟩ := boundaryMatch_some hb
    exact ⟨h1, h2⟩

/-- Witness for C3 at the spec's positive example line. -/
theorem c3_witness : (processLine "1234567 WIDGET").isSome = true := by
  have h :=
    ((c3_record_boundary.1 "1234567 WIDGET".data (by decide) (by decide) (by decide)).1).mpr
  exact h ⟨"1234567".data, [' '], "WIDGET".data, by decide, by decide, by decide,
    by decide, by decide, by decide⟩

/-- C5: the State field of every extracted record is the first code of the
fixed 51-entry enumeration (not the leftmost in the line) that occurs in
the remainder immediately preceded by a letter and immediately followed
by whitespace or end-of-string; when no code so occurs, State is the
empty string. -/
theorem c5_state_enumeration_order (q : String) (rest : List Char) :
    List.lookup "State" (extractLine q rest) = some (stateOf rest) ∧
    ((stateOf rest = "" ∧ ∀ st ∈ statesList, ¬ CtxSpec st.data rest) ∨
     (∃ pre suf, statesList = pre ++ stateOf rest :: suf ∧
        CtxSpec (stateOf rest).data rest ∧ ∀ st ∈ pre, ¬ CtxSpec st.data rest)) := by
  constructor
  · unfold extractLine
    rw [lookup_fillMissing, extractFields_State]
  · unfold stateOf
    rcases hf : statesList.find? (fun st => ctxOccurs st.data rest) with _ | s <;>
      simp only [hf]
    · left
      refine ⟨trivial, fun st hst hspec => ?_⟩
      have hnone := List.find?_eq_none.mp hf st hst
      exact hnone ((ctxOccurs_iff st.data rest).mpr hspec)
    · right
      obtain ⟨hps, as, bs, heq, hpre⟩ := List.find?_eq_some.mp hf
      refine ⟨as, bs, heq, (ctxOccurs_iff _ _).mp hps, fun st hst hspec => ?_⟩
      have hb := hpre st hst
      simp only [Bool.not_eq_true'] at hb
      rw [(ctxOccurs_iff st.data rest).mpr hspec] at hb
      cases hb

/-- Witness for C5 at a concrete remainder containing a letter-preceded,
space-followed `TX`. -/
theorem c5_witness :
    List.lookup "State" (extractLine "1234567" "aTX Y".data) = some "TX" := by
  have h := (c5_state_enumeration_order "1234567" "aTX Y".data).1
  rw [h]
  decide

/-- C10: for every record produced by the line-based path, a non-empty
`Exp. Close` implies a non-empty `AddDate`, and a non-empty `Ext_Price`
implies a non-empty `ListEach`: the second date and the last price are
only assigned when a first date, respectively a first price, was found. -/
theorem c10_second_anchor_needs_first (q : String) (rest : List Char) :
    (dictGetD (extractLine q rest) "Exp. Close" ≠ "" →
      dictGetD (extractLine q rest) "AddDate" ≠ "") ∧
    (dictGetD (extractLine q rest) "Ext_Price" ≠ "" →
      dictGetD (extractLine q rest) "ListEach" ≠ "") := by
  constructor
  · intro h
    rw [extractLine_getD_of_mem _ _ _ (by decide), extractFields_AddDate]
    rw [extractLine_getD_of_mem _ _ _ (by decide), extractFields_ExpClose] at h
    rcases hd : datesOf rest with _ | ⟨d1, _ | ⟨d2, ds⟩⟩
    · rw [hd] at h; simp at h
    · rw [hd] at h; simp at h
    · have hmem : d1 ∈ datesOf rest := by rw [hd]; exact List.mem_cons_self _ _
      simpa using stringMk_ne_empty (datesOf_tok_ne_nil hmem)
  · intro h
    rw [extractLine_getD_of_mem _ _ _ (by decide), extractFields_ListEach]
    rw [extractLine_getD_of_mem _ _ _ (by decide), extractFields_ExtPrice] at h
    rcases hp : pricesOf rest with _ | ⟨p1, _ | ⟨p2, ps⟩⟩
    · rw [hp] at h; simp at h
    · rw [hp] at h; simp at h
    · have hmem : penultD (p1 :: p2 :: ps) ∈ pricesOf rest := by
        rw [hp]; exact penultD_mem (by simp)
      simpa using stringMk_ne_empty (pricesOf_tok_ne_nil hmem)

/-- Witness for C10 at a concrete remainder with two dates and two money
tokens. -/
theorem c10_witness :
    dictGetD (extractLine "1234567" "A 1/2/24 3/4/24 1.00 2.00".data) "AddDate" ≠ "" ∧
    dictGetD (extractLine "1234567" "A 1/2/24 3/4/24 1.00 2.00".data) "ListEach" ≠ "" :=
  ⟨(c10_second_anchor_needs_first "1234567" "A 1/2/24 3/4/24 1.00 2.00".data).1 (by decide),
   (c10_second_anchor_needs_first "1234567" "A 1/2/24 3/4/24 1.00 2.00".data).2 (by decide)⟩

/-- C4: money tokens are collected left to right by the findall scan
(`pricesOf`); with at least two, the second-to-last becomes `ListEach` and
the last becomes `Ext_Price`; with exactly one, it becomes `ListEach` and
`Ext_Price` stays empty; with none, both stay empty. -/
theorem c4_money_assignment (q : String) (rest : List Char) :
    (2 ≤ (pricesOf rest).length →
      dictGetD (extractLine q rest) "ListEach" = String.mk (penultD (pricesOf rest)) ∧
      dictGetD (extractLine q rest) "Ext_Price" = String.mk (lastD (pricesOf rest))) ∧
    ((pricesOf rest).length = 1 →
      dictGetD (extractLine q rest) "ListEach" = String.mk ((pricesOf rest).headD []) ∧
      dictGetD (extractLine q rest) "Ext_Price" = "") ∧
    ((pricesOf rest).length = 0 →
      dictGetD (extractLine q rest) "ListEach" = "" ∧
      dictGetD (extractLine q rest) "Ext_Price" = "") := by
  rw [extractLine_getD_of_mem _ _ "ListEach" (by decide), extractFields_ListEach,
      extractLine_getD_of_mem _ _ "Ext_Price" (by decide), extractFields_ExtPrice]
  rcases hp : pricesOf rest with _ | ⟨p1, _ | ⟨p2, ps⟩⟩ <;> simp

/-- Witness for C4 at concrete remainders with two, one and zero money
tokens. -/
theorem c4_witness :
    dictGetD (extractLine "1234567" "100.00 x 1,234.56".data) "ListEach" = "100.00" ∧
    dictGetD (extractLine "1234567" "100.00 x 1,234.56".data) "Ext_Price" = "1,234.56" ∧
    dictGetD (extractLine "1234567" "x 50.00".data) "ListEach" = "50.00" ∧
    dictGetD (extractLine "1234567" "x 50.00".data) "Ext_Price" = "" ∧
    dictGetD (extractLine "1234567" "x y".data) "ListEach" = "" ∧
    dictGetD (extractLine "1234567" "x y".data) "Ext_Price" = "" := by
  have h2 := (c4_money_assignment "1234567" "100.00 x 1,234.56".data).1 (by decide)
  have h1 := (c4_money_assignment "1234567" "x 50.00".data).2.1 (by decide)
  have h0 := (c4_money_assignment "1234567" "x y".data).2.2 (by decide)
  refine ⟨?_, ?_, ?_, ?_, ?_, ?_⟩
  · rw [h2.1]; decide
  · rw [h2.2]; decide
  · rw [h1.1]; decide
  · exact h1.2
  · exact h0.1
  · exact h0.2

end QuoteReview
